import Mathlib

/-!
Verification development for the notification-generation pipeline of a
git-tracking Discord bot.  The JavaScript sources embedded here are
`src/lib/prompts.js` (diff windowing and prompt assembly) and the LLM
service module (orchestration, JSON-response normalisation, fallback
message, Discord embed).  JavaScript strings are modelled as Lean
`String`s, arrays as `List`s, thrown exceptions as `Except JsErr`,
`null`/`undefined` arguments as `Option`, and the network calls of the
three provider adapters as an oracle parameter giving each adapter's
outcome.  All definitions are kept executable (fuel-based recursion in
place of unbounded loops) so that concrete runs reduce in the kernel.
-/

/-- `JsErr` models a thrown JavaScript exception: a `TypeError` (e.g. a
property access on `undefined`), a JSON `SyntaxError` from `JSON.parse`,
or a plain `Error` with a message. -/
inductive JsErr where
  | typeErr (msg : String)
  | parseFail (msg : String)
  | jsErr (msg : String)
deriving DecidableEq, Repr

/-- Models JavaScript `String.prototype.startsWith` on the underlying
character sequences. -/
def strStarts (l p : String) : Bool := p.data.isPrefixOf l.data

/-- Splits a character list at every newline, the semantics of
JavaScript `string.split('\n')`: the result is always non-empty and an
empty string yields `[[]]`. -/
def splitNl : List Char → List (List Char)
  | [] => [[]]
  | '\n' :: rest => [] :: splitNl rest
  | c :: rest =>
    match splitNl rest with
    | h :: t => (c :: h) :: t
    | [] => [[c]]

/-- `diff.split('\n')` from the source, as a list of line strings. -/
def jsSplitLines (s : String) : List String := (splitNl s.data).map String.mk

/-- Models JavaScript `array.join('\n')`. -/
def joinNl (xs : List String) : String :=
  match xs with
  | [] => ""
  | h :: t => t.foldl (fun acc l => acc ++ "\n" ++ l) h

/-- `lines[i]` for an immutable line array; out-of-range reads (which the
scanned loop never performs) default to the empty string. -/
def getLine (lines : List String) (i : Nat) : String := lines.getD i ""

/-- The header test of `filterDiffToChanges`: lines kept verbatim
(`diff --git`, `index `, `--- `, `+++ `, `@@ `). -/
def isHeaderLine (l : String) : Bool :=
  strStarts l "diff --git" || strStarts l "index " || strStarts l "--- " ||
  strStarts l "+++ " || strStarts l "@@ "

/-- The change test of `filterDiffToChanges`: the line starts with `+`
or `-` (only consulted after the header test has failed). -/
def isChangeStart (l : String) : Bool := strStarts l "+" || strStarts l "-"

/-- The neighbour-context test of `filterDiffToChanges`: a neighbour of
a change line is emitted when it does not start with `+`, `-` or `@@`. -/
def ctxKeep (l : String) : Bool :=
  !strStarts l "+" && !strStarts l "-" && !strStarts l "@@"

/-- A change line in the sense of the specification: it starts with `+`
or `-` but is not one of the header forms (`+++ `, `--- `, ...). -/
def isRealChange (l : String) : Bool := !isHeaderLine l && isChangeStart l

/-- The preceding-neighbour emission test of the change branch of
`filterDiffToChanges` (`i > 0 && !addedLines.has(i-1)` plus the context
test on the previous line). -/
def preEmitB (lines : List String) (i : Nat) (added : List Nat) : Bool :=
  decide (0 < i) && !added.contains (i - 1) && ctxKeep (getLine lines (i - 1))

/-- The `addedLines` set right after the change line itself has been
pushed: the change index `i`, preceded (when the preceding context line
was just emitted) by `i - 1`. -/
def addedMid (lines : List String) (i : Nat) (added : List Nat) : List Nat :=
  i :: (if preEmitB lines i added then (i - 1) :: added else added)

/-- The following-neighbour emission test of the change branch (the
source consults `addedLines` after inserting `i`, hence `addedMid`). -/
def postEmitB (lines : List String) (i : Nat) (added : List Nat) : Bool :=
  decide (i + 1 < lines.length) && !(addedMid lines i added).contains (i + 1)
    && ctxKeep (getLine lines (i + 1))

/-- The `addedLines` set after the whole change branch at `i`. -/
def changeAdded (lines : List String) (i : Nat) (added : List Nat) : List Nat :=
  if postEmitB lines i added then (i + 1) :: addedMid lines i added
  else addedMid lines i added

/-- The indices pushed by the change branch at `i`, in push order:
optional preceding context line, the change line, optional following
context line. -/
def changeEmit (lines : List String) (i : Nat) (added : List Nat) : List Nat :=
  (if preEmitB lines i added then [i - 1] else []) ++ i ::
    (if postEmitB lines i added then [i + 1] else [])

/-- The scanning loop of `filterDiffToChanges`, recorded as the list of
emitted line indices (the source pushes `lines[j]` the moment index `j`
is emitted; since `lines` is immutable this equals mapping `getLine`
over the emitted indices afterwards).  `added` is the `addedLines` set,
`i` the loop counter, and `fuel` the number of remaining iterations
(the JavaScript `for` loop runs `lines.length` times, so the wrapper
passes `lines.length`). -/
def scanAux (lines : List String) : Nat → Nat → List Nat → List Nat
  | 0, _, _ => []
  | fuel + 1, i, added =>
    if i < lines.length then
      if isHeaderLine (getLine lines i) then
        i :: scanAux lines fuel (i + 1) added
      else if isChangeStart (getLine lines i) then
        changeEmit lines i added ++ scanAux lines fuel (i + 1) (changeAdded lines i added)
      else
        scanAux lines fuel (i + 1) added
    else []

/-- The indices of the lines emitted by the full scan of
`filterDiffToChanges`, in emission order. -/
def emittedIdx (lines : List String) : List Nat := scanAux lines lines.length 0 []

/-- `filterDiffToChanges(diff)` from `src/lib/prompts.js`.  A falsy
`diff` (`null`, `undefined` or the empty string) yields the fixed
placeholder; otherwise the scan emits headers unconditionally and change
lines together with their not-yet-emitted eligible neighbours. -/
def filterDiffToChanges : Option String → String
  | none => "No diff available"
  | some d =>
    if d = "" then "No diff available"
    else
      let lines := jsSplitLines d
      joinNl ((emittedIdx lines).map (getLine lines))

/-- A commit object; only its `message` field is consumed by the
pipeline. -/
structure Commit where
  message : String
deriving DecidableEq, Repr

/-- Repository metadata as consumed by the pipeline. -/
structure Repository where
  name : String
  full_name : String
  html_url : String
deriving DecidableEq, Repr

/-- `message.split('\n')[0]`: the first line (title) of a commit
message. -/
def firstLine (s : String) : String := (jsSplitLines s).headD ""

/-- `generateFallbackMessage(commits, repository)` from the LLM service.
On an empty array the source evaluates `commits[0].message` where
`commits[0]` is `undefined`, so the call throws a `TypeError`; this is
modelled by the `.error` branch. -/
def generateFallbackMessage (commits : List Commit) (_repository : Repository) :
    Except JsErr String :=
  match commits with
  | [] => .error (.typeErr "Cannot read properties of undefined (reading 'message')")
  | c :: _ =>
    if commits.length = 1 then
      .ok (firstLine c.message)
    else
      .ok (firstLine c.message ++ " (+" ++ toString (commits.length - 1) ++ " more)")

/-- `generatePushPrompt(commits, repository, diff)` from
`src/lib/prompts.js`.  The template interpolates only the repository
name and the filtered diff; `commitMessages` and `commitCount` are
computed but never referenced by the template. -/
def generatePushPrompt (commits : List Commit) (repository : Repository)
    (diff : Option String) : String :=
  let _commitMessages := joinNl (commits.map (·.message))
  let _commitCount := commits.length
  let repoName := repository.name
  let filteredDiff := filterDiffToChanges diff
  "Analyze this git diff and create a structured update summary for end users.\n\nRepository: "
    ++ repoName
    ++ "\n\nGit Diff:\n"
    ++ filteredDiff
    ++ "\n\nCRITICAL REQUIREMENTS:\n1. Each bullet point MUST be directly derived from specific changes visible in the diff above\n2. You must be able to point to exact lines of code that support each bullet point\n3. If you cannot find evidence in the diff for a change, DO NOT include it\n4. ONLY include changes that directly affect the user experience - what users will see, feel, or interact with differently\n\nAnalysis Process:\n1. First, identify all user-facing changes by examining the diff\n2. For each change, determine what users will actually experience differently\n3. Only create bullet points for changes that have a direct impact on user experience\n4. If the diff shows only internal/technical changes with no user impact, create no bullet points\n\nRequirements for bullet points:\n- Each bullet point must correspond to specific additions/deletions in the diff\n- Explain what users will notice or experience differently\n- Use simple, clear language that non-technical users understand\n- Be specific about the user impact (what they can see, do, or experience)\n- NO file names, technical details, or developer jargon\n- NO fluff, opinions, or marketing language\n- NO emojis or visual elements\n- NO generic statements that could apply to any commit\n\nExamples of EVIDENCE-BASED bullet points:\n- \"Fixed login form validation - users will no longer see 'invalid email' errors for valid addresses\" (evidence: validation logic changes in diff)\n- \"Added dark mode toggle in user settings menu\" (evidence: new UI component in diff)\n- \"Improved mobile navigation - menu now slides in from the left\" (evidence: CSS/JS changes for mobile menu)\n- \"Fixed image loading issue on slow connections\" (evidence: timeout/retry logic changes)\n\nExamples of BAD bullet points (avoid these):\n- \"Improved user experience\" (too vague, no specific evidence)\n- \"Fixed bugs\" (generic, no specific evidence)\n- \"Updated dependencies\" (technical, not user-facing)\n- \"Enhanced security\" (vague, unless specific security code is visible)\n- \"Improved performance\" (unless specific performance code is visible)\n\nOutput format (JSON only):\n\x7b\n  \"summary\": \"Brief overall summary without emojis\",\n  \"changes\": [\n    \"First specific user-facing change with clear evidence in diff\",\n    \"Second specific user-facing change with clear evidence in diff\"\n  ]\n\x7d\n\nGenerate a JSON response with a summary and evidence-based bullet points. Include as many or as few bullet points as needed - only include changes that directly affect the user experience. If there are no user-facing changes, the changes array can be empty."

/-- One entry of a Discord embed's `fields` array. -/
structure EmbedField where
  name : String
  value : String
  inline : Bool
deriving DecidableEq, Repr

/-- The embed object built by `createDiscordEmbed`.  `fields := none`
models the `fields` key being entirely absent from the object (the
source only assigns `embed.fields` when links are shown). -/
structure DiscordEmbed where
  color : Nat
  description : String
  timestamp : String
  footerText : String
  footerIconUrl : String
  fields : Option (List EmbedField)
deriving DecidableEq, Repr

/-- `createDiscordEmbed(message, repository, compareUrl, hideGitHubLinks)`
from the LLM service.  `new Date().toISOString()` is nondeterministic
real time, passed here as the explicit `now` argument. -/
def createDiscordEmbed (message : String) (repository : Repository)
    (compareUrl : String) (hideGitHubLinks : Bool) (now : String) : DiscordEmbed :=
  let embed : DiscordEmbed :=
    { color := 0x28a745
      description := message
      timestamp := now
      footerText := "GitTrack Enhanced • AI-Powered Updates"
      footerIconUrl := "https://github.githubassets.com/images/modules/logos_page/GitHub-Mark.png"
      fields := none }
  if !hideGitHubLinks then
    { embed with
      fields := some
        [ { name := "Repository"
            value := "[" ++ repository.full_name ++ "](" ++ repository.html_url ++ ")"
            inline := true }
        , { name := "View Changes"
            value := "[Compare](" ++ compareUrl ++ ")"
            inline := true } ] }
  else embed

/-! ### JSON values and `JSON.parse`

`formatJsonResponse` strips markdown code fences, trims, and parses the
result with `JSON.parse`.  The JSON data model is embedded below.
JavaScript numbers that are written as plain (optionally signed)
integers are kept exactly as `Int` (`jsNum`); numerals with a fraction
or exponent part are kept by their source lexeme (`jsNumRaw`), which is
exact for deciding sign/zeroness and renders canonically written
numerals the way JavaScript does.  `jsUndefined` is the JavaScript
`undefined` produced by reading an absent property; it is never produced
by the parser. -/
inductive JsValue where
  | jsNull
  | jsUndefined
  | jsBool (b : Bool)
  | jsNum (i : Int)
  | jsNumRaw (lexeme : String)
  | jsStr (s : String)
  | jsArr (elems : List JsValue)
  | jsObj (fields : List (String × JsValue))

/-- JSON whitespace accepted between tokens by `JSON.parse`. -/
def isJsonWs (c : Char) : Bool := c = ' ' || c = '\t' || c = '\n' || c = '\r'

/-- Skip insignificant JSON whitespace. -/
def skipWs (cs : List Char) : List Char := cs.dropWhile isJsonWs

/-- Hexadecimal digit value for `\uXXXX` string escapes. -/
def hexVal (c : Char) : Option Nat :=
  if '0' ≤ c ∧ c ≤ '9' then some (c.toNat - '0'.toNat)
  else if 'a' ≤ c ∧ c ≤ 'f' then some (c.toNat - 'a'.toNat + 10)
  else if 'A' ≤ c ∧ c ≤ 'F' then some (c.toNat - 'A'.toNat + 10)
  else none

/-- Body of a JSON string literal, after the opening quote: returns the
decoded characters and the input remaining after the closing quote.
Unescaped control characters are rejected, escapes follow the JSON
grammar (`\uXXXX` code units are mapped through `Char.ofNat`). -/
def parseStrChars : List Char → Option (List Char × List Char)
  | [] => none
  | '"' :: rest => some ([], rest)
  | '\\' :: esc =>
    match esc with
    | '"' :: r => (parseStrChars r).map (fun p => ('"' :: p.1, p.2))
    | '\\' :: r => (parseStrChars r).map (fun p => ('\\' :: p.1, p.2))
    | '/' :: r => (parseStrChars r).map (fun p => ('/' :: p.1, p.2))
    | 'b' :: r => (parseStrChars r).map (fun p => ('\x08' :: p.1, p.2))
    | 'f' :: r => (parseStrChars r).map (fun p => ('\x0c' :: p.1, p.2))
    | 'n' :: r => (parseStrChars r).map (fun p => ('\n' :: p.1, p.2))
    | 'r' :: r => (parseStrChars r).map (fun p => ('\x0d' :: p.1, p.2))
    | 't' :: r => (parseStrChars r).map (fun p => ('\t' :: p.1, p.2))
    | 'u' :: h1 :: h2 :: h3 :: h4 :: r =>
      match hexVal h1, hexVal h2, hexVal h3, hexVal h4 with
      | some a, some b, some c, some d =>
        (parseStrChars r).map (fun p =>
          (Char.ofNat (((a * 16 + b) * 16 + c) * 16 + d) :: p.1, p.2))
      | _, _, _, _ => none
    | _ => none
  | c :: rest =>
    if c.toNat < 0x20 then none
    else (parseStrChars rest).map (fun p => (c :: p.1, p.2))

/-- Digits-to-value accumulator for number parsing. -/
def digitsToNat (ds : List Char) : Nat :=
  ds.foldl (fun acc c => acc * 10 + (c.toNat - '0'.toNat)) 0

/-- A JSON number token at the head of the input, following the JSON
grammar (`-?(0|[1-9][0-9]*)(\.[0-9]+)?([eE][+-]?[0-9]+)?`); a fraction
or exponent part is only consumed when complete, mirroring how the
tokenizer of `JSON.parse` fails on a dangling `.` or `e` (the leftover
character then makes the whole parse fail).  Plain integers produce an
exact `jsNum`; other numerals keep their lexeme. -/
def parseNumber (cs : List Char) : Option (JsValue × List Char) :=
  let (neg, sgn, cs1) :=
    match cs with
    | '-' :: r => (true, ['-'], r)
    | _ => (false, ([] : List Char), cs)
  let intPart : Option (List Char × List Char) :=
    match cs1 with
    | '0' :: r => some (['0'], r)
    | c :: _ =>
      if '1' ≤ c ∧ c ≤ '9' then
        some (cs1.takeWhile Char.isDigit, cs1.dropWhile Char.isDigit)
      else none
    | [] => none
  match intPart with
  | none => none
  | some (ds, rest1) =>
    let (fracDs, rest2) :=
      match rest1 with
      | '.' :: r =>
        let f := r.takeWhile Char.isDigit
        if f = [] then ([], rest1) else ('.' :: f, r.dropWhile Char.isDigit)
      | _ => ([], rest1)
    let (expDs, rest3) :=
      match rest2 with
      | 'e' :: '+' :: r =>
        let e := r.takeWhile Char.isDigit
        if e = [] then ([], rest2) else ('e' :: '+' :: e, r.dropWhile Char.isDigit)
      | 'e' :: '-' :: r =>
        let e := r.takeWhile Char.isDigit
        if e = [] then ([], rest2) else ('e' :: '-' :: e, r.dropWhile Char.isDigit)
      | 'e' :: r =>
        let e := r.takeWhile Char.isDigit
        if e = [] then ([], rest2) else ('e' :: e, r.dropWhile Char.isDigit)
      | 'E' :: '+' :: r =>
        let e := r.takeWhile Char.isDigit
        if e = [] then ([], rest2) else ('E' :: '+' :: e, r.dropWhile Char.isDigit)
      | 'E' :: '-' :: r =>
        let e := r.takeWhile Char.isDigit
        if e = [] then ([], rest2) else ('E' :: '-' :: e, r.dropWhile Char.isDigit)
      | 'E' :: r =>
        let e := r.takeWhile Char.isDigit
        if e = [] then ([], rest2) else ('E' :: e, r.dropWhile Char.isDigit)
      | _ => ([], rest2)
    if fracDs = [] ∧ expDs = [] then
      let v : Int := Int.ofNat (digitsToNat ds)
      some (.jsNum (if neg then -v else v), rest1)
    else
      some (.jsNumRaw (String.mk (sgn ++ ds ++ fracDs ++ expDs)), rest3)

/-- The production being parsed by a `parseGo` step. -/
inductive PTask where
  | pVal
  | pArrItems
  | pArrMore
  | pObjItems
  | pObjMore

/-- The partial result produced by a `parseGo` step. -/
inductive POut where
  | oVal (v : JsValue)
  | oList (vs : List JsValue)
  | oFields (fs : List (String × JsValue))

/-- Recursive-descent core of `JSON.parse`.  `pVal` parses one value at
the head of the input; `pArrItems`/`pObjItems` parse the (possibly
empty) element list after an opening bracket, `pArrMore`/`pObjMore` the
`, element` continuation — trailing commas and stray tokens are
syntax errors, as in `JSON.parse`.  The fuel only bounds recursion
depth; the wrapper supplies more than any input can consume. -/
def parseGo : Nat → PTask → List Char → Option (POut × List Char)
  | 0, _, _ => none
  | fuel + 1, .pVal, cs =>
    match cs with
    | 'n' :: 'u' :: 'l' :: 'l' :: rest => some (.oVal .jsNull, rest)
    | 't' :: 'r' :: 'u' :: 'e' :: rest => some (.oVal (.jsBool true), rest)
    | 'f' :: 'a' :: 'l' :: 's' :: 'e' :: rest => some (.oVal (.jsBool false), rest)
    | '"' :: rest =>
      (parseStrChars rest).map (fun p => (.oVal (.jsStr (String.mk p.1)), p.2))
    | '[' :: rest =>
      match parseGo fuel .pArrItems (skipWs rest) with
      | some (.oList vs, r) => some (.oVal (.jsArr vs), r)
      | _ => none
    | '\x7b' :: rest =>
      match parseGo fuel .pObjItems (skipWs rest) with
      | some (.oFields fs, r) => some (.oVal (.jsObj fs), r)
      | _ => none
    | _ => (parseNumber cs).map (fun p => (.oVal p.1, p.2))
  | fuel + 1, .pArrItems, cs =>
    match cs with
    | ']' :: rest => some (.oList [], rest)
    | _ =>
      match parseGo fuel .pVal cs with
      | some (.oVal v, r) =>
        match parseGo fuel .pArrMore (skipWs r) with
        | some (.oList vs, r2) => some (.oList (v :: vs), r2)
        | _ => none
      | _ => none
  | fuel + 1, .pArrMore, cs =>
    match cs with
    | ']' :: rest => some (.oList [], rest)
    | ',' :: rest =>
      match parseGo fuel .pVal (skipWs rest) with
      | some (.oVal v, r) =>
        match parseGo fuel .pArrMore (skipWs r) with
        | some (.oList vs, r2) => some (.oList (v :: vs), r2)
        | _ => none
      | _ => none
    | _ => none
  | fuel + 1, .pObjItems, cs =>
    match cs with
    | '\x7d' :: rest => some (.oFields [], rest)
    | '"' :: rest =>
      match parseStrChars rest with
      | some (k, r1) =>
        match skipWs r1 with
        | ':' :: r2 =>
          match parseGo fuel .pVal (skipWs r2) with
          | some (.oVal v, r3) =>
            match parseGo fuel .pObjMore (skipWs r3) with
            | some (.oFields fs, r4) => some (.oFields ((String.mk k, v) :: fs), r4)
            | _ => none
          | _ => none
        | _ => none
      | none => none
    | _ => none
  | fuel + 1, .pObjMore, cs =>
    match cs with
    | '\x7d' :: rest => some (.oFields [], rest)
    | ',' :: rest =>
      match skipWs rest with
      | '"' :: r0 =>
        match parseStrChars r0 with
        | some (k, r1) =>
          match skipWs r1 with
          | ':' :: r2 =>
            match parseGo fuel .pVal (skipWs r2) with
            | some (.oVal v, r3) =>
              match parseGo fuel .pObjMore (skipWs r3) with
              | some (.oFields fs, r4) => some (.oFields ((String.mk k, v) :: fs), r4)
              | _ => none
            | _ => none
          | _ => none
        | none => none
      | _ => none
    | _ => none

/-- `JSON.parse(text)`: `none` models a thrown `SyntaxError`.  The whole
input must be consumed apart from surrounding whitespace.  The fuel
`2·length + 8` exceeds the recursion depth reachable on any input
(each nesting level and each element consumes input characters). -/
def jsonParse (s : String) : Option JsValue :=
  match parseGo (2 * s.data.length + 8) .pVal (skipWs s.data) with
  | some (.oVal v, rest) => if skipWs rest = [] then some v else none
  | _ => none

/-- Property lookup on a JavaScript object built by `JSON.parse`: with
duplicate keys the last assignment wins. -/
def lookupLast (fs : List (String × JsValue)) (k : String) : Option JsValue :=
  fs.foldl (fun acc kv => if kv.1 = k then some kv.2 else acc) none

mutual
/-- JavaScript string conversion as performed by template-literal
interpolation (`String(v)`).  Numbers kept by lexeme (`jsNumRaw`) render
as that lexeme, which agrees with JavaScript for canonically written
numerals. -/
def jsToString : JsValue → String
  | .jsNull => "null"
  | .jsUndefined => "undefined"
  | .jsBool b => if b then "true" else "false"
  | .jsNum i => toString i
  | .jsNumRaw lex => lex
  | .jsStr s => s
  | .jsArr xs => jsArrToString xs
  | .jsObj _ => "[object Object]"

/-- `Array.prototype.toString`: elements joined with `,`. -/
def jsArrToString : List JsValue → String
  | [] => ""
  | [v] => jsElemToString v
  | v :: rest => jsElemToString v ++ "," ++ jsArrToString rest

/-- Inside `Array.prototype.join`, `null` and `undefined` elements
render as the empty string. -/
def jsElemToString : JsValue → String
  | .jsNull => ""
  | .jsUndefined => ""
  | v => jsToString v
end

/-- Property read `v.p`, which throws a `TypeError` on `null` and
`undefined`, finds object fields (or yields `undefined` for absent
ones), and exposes `length` on arrays and strings. -/
def jsGetProp : JsValue → String → Except JsErr JsValue
  | .jsNull, p =>
    .error (.typeErr ("Cannot read properties of null (reading '" ++ p ++ "')"))
  | .jsUndefined, p =>
    .error (.typeErr ("Cannot read properties of undefined (reading '" ++ p ++ "')"))
  | .jsObj fs, p => .ok ((lookupLast fs p).getD .jsUndefined)
  | .jsArr xs, p => if p = "length" then .ok (.jsNum (xs.length : Int)) else .ok .jsUndefined
  | .jsStr s, p => if p = "length" then .ok (.jsNum (s.length : Int)) else .ok .jsUndefined
  | _, _ => .ok .jsUndefined

/-- The mantissa (everything before any exponent marker) of a numeric
lexeme. -/
def numLexMantissa (lex : String) : List Char :=
  lex.data.takeWhile (fun c => c ≠ 'e' ∧ c ≠ 'E')

/-- A numeric lexeme denotes a nonzero value exactly when its mantissa
contains a nonzero digit. -/
def numLexNonzero (lex : String) : Bool :=
  (numLexMantissa lex).any (fun c => '1' ≤ c ∧ c ≤ '9')

/-- A numeric lexeme denotes a positive value exactly when it is
unsigned with a nonzero mantissa. -/
def numLexPos (lex : String) : Bool := !strStarts lex "-" && numLexNonzero lex

/-- JavaScript truthiness of the values arising here (`0`, `''`,
`null`, `undefined` and `false` are falsy). -/
def jsTruthy : JsValue → Bool
  | .jsNull => false
  | .jsUndefined => false
  | .jsBool b => b
  | .jsNum i => decide (i ≠ 0)
  | .jsNumRaw lex => numLexNonzero lex
  | .jsStr s => decide (s ≠ "")
  | .jsArr _ => true
  | .jsObj _ => true

/-- The comparison `v > 0` for the values reaching it in
`formatJsonResponse` (a `length` read): numbers compare numerically and
`true` coerces to `1`; `undefined` gives `NaN` and compares false.
(Numeric coercion of strings/arrays, unreachable for well-formed model
output, is modelled as false.) -/
def jsGtZero : JsValue → Bool
  | .jsNum i => decide (0 < i)
  | .jsNumRaw lex => numLexPos lex
  | .jsBool b => b
  | _ => false

/-- `changes.map(change => `• ${change}`)`: only arrays have `map`;
calling it on any other value throws a `TypeError`. -/
def jsMapBullet : JsValue → Except JsErr (List String)
  | .jsArr xs => .ok (xs.map (fun c => "• " ++ jsToString c))
  | _ => .error (.typeErr "parsed.changes.map is not a function")

/-- Recognises a ```` ```json ```` code-fence opener at the head of the
input (the backtick is written via its code point). -/
def isFenceJson (cs : List Char) : Bool :=
  match cs with
  | a :: b :: c :: j :: s :: o :: n :: _ =>
    a.toNat == 96 && b.toNat == 96 && c.toNat == 96 &&
      j == 'j' && s == 's' && o == 'o' && n == 'n'
  | _ => false

/-- Recognises a bare triple-backtick fence at the head of the input. -/
def isFence3 (cs : List Char) : Bool :=
  match cs with
  | a :: b :: c :: _ => a.toNat == 96 && b.toNat == 96 && c.toNat == 96
  | _ => false

/-- The optional `\n` consumed by the fence-stripping regexes. -/
def dropNl : List Char → List Char
  | '\n' :: r => r
  | cs => cs

/-- `rawResponse.replace(/```json\n?/g, '')`: a single left-to-right
scan removing every occurrence (the regex consumes a trailing newline
greedily).  The fuel only bounds the scan; one unit is spent per
consumed position, so the input's length suffices. -/
def stripJsonAll : Nat → List Char → List Char
  | 0, cs => cs
  | _ + 1, [] => []
  | fuel + 1, c :: rest =>
    if isFenceJson (c :: rest) then stripJsonAll fuel (dropNl ((c :: rest).drop 7))
    else c :: stripJsonAll fuel rest

/-- `.replace(/```\n?/g, '')`, applied to the result of the previous
replacement. -/
def stripBareAll : Nat → List Char → List Char
  | 0, cs => cs
  | _ + 1, [] => []
  | fuel + 1, c :: rest =>
    if isFence3 (c :: rest) then stripBareAll fuel (dropNl ((c :: rest).drop 3))
    else c :: stripBareAll fuel rest

/-- Whitespace removed by JavaScript `String.prototype.trim`. -/
def isJsWsChar (c : Char) : Bool :=
  c = ' ' || c = '\t' || c = '\n' || c = '\r' || c = '\x0b' || c = '\x0c' ||
  c.toNat == 0xa0 || c.toNat == 0xfeff || c.toNat == 0x2028 || c.toNat == 0x2029

/-- JavaScript `String.prototype.trim`. -/
def jsTrim (s : String) : String :=
  String.mk (((s.data.dropWhile isJsWsChar).reverse.dropWhile isJsWsChar).reverse)

/-- The `cleanedResponse` of `formatJsonResponse`: both fence
replacements followed by `trim()`. -/
def jsClean (s : String) : String :=
  jsTrim (String.mk (stripBareAll s.data.length (stripJsonAll s.data.length s.data)))

/-- The body of the `try` block of `formatJsonResponse`: clean, parse
with `JSON.parse` (whose failure is a thrown `SyntaxError`), then render
`Update summary: ${parsed.summary}` plus, when
`parsed.changes && parsed.changes.length > 0`, a blank line and the
bullet lines. -/
def formatCore (rawResponse : String) : Except JsErr String :=
  match jsonParse (jsClean rawResponse) with
  | none => .error (.parseFail "Unexpected token in JSON")
  | some parsed => do
    let summaryVal ← jsGetProp parsed "summary"
    let formattedMessage := "Update summary: " ++ jsToString summaryVal
    let changesVal ← jsGetProp parsed "changes"
    if jsTruthy changesVal then
      let lengthVal ← jsGetProp changesVal "length"
      if jsGtZero lengthVal then
        let bullets ← jsMapBullet changesVal
        pure (formattedMessage ++ "\n\n" ++ joinNl bullets)
      else
        pure formattedMessage
    else
      pure formattedMessage

/-- `formatJsonResponse(rawResponse)` from the LLM service: the whole
body runs inside `try`, and the `catch` returns the raw response
unchanged, so the function never throws. -/
def formatJsonResponse (rawResponse : String) : String :=
  match formatCore rawResponse with
  | .ok v => v
  | .error _ => rawResponse

/-- The `try` block of `generateUserFriendlyMessage`: provider dispatch
followed by `formatJsonResponse`.  The three `generateWith…` adapters
perform network calls; their outcomes (trimmed response text, or a
thrown error) are supplied by the oracle `net`, keyed by provider name.
An unrecognised provider throws before any adapter is consulted. -/
def llmTryBody (net : String → Except JsErr String) (_commits : List Commit)
    (provider : String) (_apiKey : String) (_repository : Repository)
    (_diff : Option String) : Except JsErr String :=
  (if provider = "openai" then net "openai"
   else if provider = "openrouter" then net "openrouter"
   else if provider = "gemini" then net "gemini"
   else .error (.jsErr ("Unsupported provider: " ++ provider))).map
    formatJsonResponse

/-- `generateUserFriendlyMessage(commits, provider, apiKey, repository,
diff)`: the single outer `catch` converts any exception from the `try`
block into `generateFallbackMessage(commits, repository)` — whose own
exceptions, if any, are not caught and propagate to the caller. -/
def generateUserFriendlyMessage (net : String → Except JsErr String)
    (commits : List Commit) (provider : String) (apiKey : String)
    (repository : Repository) (diff : Option String) : Except JsErr String :=
  match llmTryBody net commits provider apiKey repository diff with
  | .ok v => .ok v
  | .error _ => generateFallbackMessage commits repository

/-! ### Helper lemmas -/

/-- Shape of the fallback message on a non-empty commit list. -/
theorem fallback_cons (c : Commit) (rest : List Commit) (repository : Repository) :
    generateFallbackMessage (c :: rest) repository =
      .ok (if rest = [] then firstLine c.message
           else firstLine c.message ++ " (+" ++ toString rest.length ++ " more)") := by
  cases rest with
  | nil => rfl
  | cons r t => simp [generateFallbackMessage]

/-- Appending the multi-commit suffix never yields the empty string. -/
theorem fallback_suffix_ne_empty (x y : String) :
    x ++ " (+" ++ y ++ " more)" ≠ "" := by
  intro h
  have hlen := congrArg String.length h
  simp [String.length_append] at hlen
  exact absurd hlen.1.1.2 (by decide)

/-! ### C1, C6, C7, C8, C9 -/

/-- C1 (counterexample): with an empty commits array the claim fails —
on the unsupported-provider path the outer catch calls
`generateFallbackMessage([], repository)`, which evaluates
`commits[0].message` on `undefined` and throws, so
`generateUserFriendlyMessage` itself raises instead of returning a
non-empty string; `generateFallbackMessage` does fail on the empty
array. -/
theorem pipeline_empty_commits_throw_cex :
    generateUserFriendlyMessage (fun _ => .ok "") [] "bogus" "key"
        ⟨"repo", "owner/repo", "https://example.com/r"⟩ (some "") =
      .error (.typeErr "Cannot read properties of undefined (reading 'message')") ∧
    generateFallbackMessage [] ⟨"repo", "owner/repo", "https://example.com/r"⟩ =
      .error (.typeErr "Cannot read properties of undefined (reading 'message')") :=
  ⟨rfl, rfl⟩

/-- C1 (amended): for every non-empty commits array whose first
commit's message has a non-empty first line, and for every repository,
provider, apiKey, diff and backend outcome,
`generateUserFriendlyMessage` returns without raising; whenever the try
block failed (any backend/provider error) the returned value is exactly
the fallback message and is non-empty. -/
theorem pipeline_total_nonempty_commits
    (net : String → Except JsErr String) (c : Commit) (rest : List Commit)
    (provider apiKey : String) (repository : Repository) (diff : Option String)
    (htitle : firstLine c.message ≠ "") :
    ∃ s : String,
      generateUserFriendlyMessage net (c :: rest) provider apiKey repository diff = .ok s ∧
      ∀ e, llmTryBody net (c :: rest) provider apiKey repository diff = .error e →
        s ≠ "" ∧ generateFallbackMessage (c :: rest) repository = .ok s := by
  cases h : llmTryBody net (c :: rest) provider apiKey repository diff with
  | ok v =>
    refine ⟨v, ?_, ?_⟩
    · simp [generateUserFriendlyMessage, h]
    · intro e he; simp at he
  | error e0 =>
    refine ⟨if rest = [] then firstLine c.message
            else firstLine c.message ++ " (+" ++ toString rest.length ++ " more)", ?_, ?_⟩
    · simp [generateUserFriendlyMessage, h, fallback_cons]
    · intro e _
      refine ⟨?_, fallback_cons c rest repository⟩
      by_cases hr : rest = [] <;> simp [hr, htitle, fallback_suffix_ne_empty]

/-- C1 (witness for the amended theorem). -/
theorem pipeline_total_nonempty_commits_witness :
    firstLine (Commit.mk "Fix login bug\n\ndetails").message ≠ "" ∧
    ∃ s : String,
      generateUserFriendlyMessage (fun _ => .error (.jsErr "network down"))
          [⟨"Fix login bug\n\ndetails"⟩] "openai" "key"
          ⟨"repo", "owner/repo", "https://example.com/r"⟩ none = .ok s ∧
      ∀ e, llmTryBody (fun _ => .error (.jsErr "network down"))
          [⟨"Fix login bug\n\ndetails"⟩] "openai" "key"
          ⟨"repo", "owner/repo", "https://example.com/r"⟩ none = .error e →
        s ≠ "" ∧ generateFallbackMessage [⟨"Fix login bug\n\ndetails"⟩]
          ⟨"repo", "owner/repo", "https://example.com/r"⟩ = .ok s :=
  ⟨by decide,
   pipeline_total_nonempty_commits (fun _ => .error (.jsErr "network down"))
     ⟨"Fix login bug\n\ndetails"⟩ [] "openai" "key"
     ⟨"repo", "owner/repo", "https://example.com/r"⟩ none (by decide)⟩

/-- C6: on a non-empty commits array the fallback returns the first
line of the first commit's message, suffixed for `n ≥ 2` commits with
`" (+<n-1> more)"`. -/
theorem generateFallbackMessage_spec (c : Commit) (rest : List Commit)
    (repository : Repository) :
    generateFallbackMessage (c :: rest) repository =
      .ok (if rest = [] then firstLine c.message
           else firstLine c.message ++ " (+" ++ toString rest.length ++ " more)") :=
  fallback_cons c rest repository

/-- C7: an unrecognised provider makes the try block throw
`Unsupported provider: <provider>` — for every backend oracle, so no
adapter is consulted — and the outer catch then returns exactly
`generateFallbackMessage(commits, repository)`. -/
theorem unsupported_provider_falls_back
    (net : String → Except JsErr String) (c : Commit) (rest : List Commit)
    (provider apiKey : String) (repository : Repository) (diff : Option String)
    (h1 : provider ≠ "openai") (h2 : provider ≠ "openrouter")
    (h3 : provider ≠ "gemini") :
    llmTryBody net (c :: rest) provider apiKey repository diff =
        .error (.jsErr ("Unsupported provider: " ++ provider)) ∧
      generateUserFriendlyMessage net (c :: rest) provider apiKey repository diff =
        generateFallbackMessage (c :: rest) repository := by
  have hbody : llmTryBody net (c :: rest) provider apiKey repository diff =
      .error (.jsErr ("Unsupported provider: " ++ provider)) := by
    simp [llmTryBody, h1, h2, h3, Except.map]
  exact ⟨hbody, by simp [generateUserFriendlyMessage, hbody]⟩

/-- C7 (witness). -/
theorem unsupported_provider_falls_back_witness :
    llmTryBody (fun _ => .ok "response") [⟨"Fix bug\nbody"⟩] "anthropic" "key"
        ⟨"repo", "owner/repo", "https://example.com/r"⟩ none =
        .error (.jsErr ("Unsupported provider: " ++ "anthropic")) ∧
      generateUserFriendlyMessage (fun _ => .ok "response") [⟨"Fix bug\nbody"⟩]
          "anthropic" "key" ⟨"repo", "owner/repo", "https://example.com/r"⟩ none =
        generateFallbackMessage [⟨"Fix bug\nbody"⟩]
          ⟨"repo", "owner/repo", "https://example.com/r"⟩ :=
  unsupported_provider_falls_back (fun _ => .ok "response") ⟨"Fix bug\nbody"⟩ []
    "anthropic" "key" ⟨"repo", "owner/repo", "https://example.com/r"⟩ none
    (by decide) (by decide) (by decide)

/-- C8: the push prompt is a pure function (identical arguments give a
byte-identical string), and it does not depend on the commits array at
all — the template interpolates only the repository name and the
windowed diff. -/
theorem generatePushPrompt_pure_and_commit_independent
    (c1 c2 : List Commit) (r : Repository) (d : Option String) :
    generatePushPrompt c1 r d = generatePushPrompt c1 r d ∧
    generatePushPrompt c1 r d = generatePushPrompt c2 r d :=
  ⟨rfl, rfl⟩

/-- C9: hiding links removes the `fields` key entirely (`none`), while
showing links yields exactly the repository-link field followed by the
compare-link field, both inline; the description always equals the
message. -/
theorem createDiscordEmbed_fields (message : String) (repository : Repository)
    (compareUrl now : String) :
    (createDiscordEmbed message repository compareUrl true now).fields = none ∧
    (createDiscordEmbed message repository compareUrl false now).fields =
      some [⟨"Repository",
             "[" ++ repository.full_name ++ "](" ++ repository.html_url ++ ")", true⟩,
            ⟨"View Changes", "[Compare](" ++ compareUrl ++ ")", true⟩] ∧
    (createDiscordEmbed message repository compareUrl true now).description = message ∧
    (createDiscordEmbed message repository compareUrl false now).description = message :=
  ⟨rfl, rfl, rfl, rfl⟩

/-! ### Lemmas about the response normaliser -/

/-- A character other than a backtick is copied unchanged at the head of
the ```` ```json ````-stripping scan. -/
theorem isFenceJson_false_of_head (c : Char) (r : List Char) (hc : c.toNat ≠ 96) :
    isFenceJson (c :: r) = false := by
  have hbeq : (c.toNat == 96) = false := by simpa using hc
  unfold isFenceJson
  rcases r with _ | ⟨a, r⟩; · rfl
  rcases r with _ | ⟨b, r⟩; · rfl
  rcases r with _ | ⟨d, r⟩; · rfl
  rcases r with _ | ⟨e, r⟩; · rfl
  rcases r with _ | ⟨f, r⟩; · rfl
  rcases r with _ | ⟨g, r⟩; · rfl
  simp [hbeq]

/-- Same for the bare-fence scan. -/
theorem isFence3_false_of_head (c : Char) (r : List Char) (hc : c.toNat ≠ 96) :
    isFence3 (c :: r) = false := by
  have hbeq : (c.toNat == 96) = false := by simpa using hc
  unfold isFence3
  rcases r with _ | ⟨a, r⟩; · rfl
  rcases r with _ | ⟨b, r⟩; · rfl
  simp [hbeq]

/-- The ```` ```json ```` replacement keeps a non-backtick head
character in place. -/
theorem stripJsonAll_cons_head (fuel : Nat) (c : Char) (r : List Char)
    (hc : c.toNat ≠ 96) : ∃ r', stripJsonAll fuel (c :: r) = c :: r' := by
  cases fuel with
  | zero => exact ⟨r, rfl⟩
  | succ f =>
    refine ⟨stripJsonAll f r, ?_⟩
    simp [stripJsonAll, isFenceJson_false_of_head c r hc]

/-- The bare-fence replacement keeps a non-backtick head character in
place. -/
theorem stripBareAll_cons_head (fuel : Nat) (c : Char) (r : List Char)
    (hc : c.toNat ≠ 96) : ∃ r', stripBareAll fuel (c :: r) = c :: r' := by
  cases fuel with
  | zero => exact ⟨r, rfl⟩
  | succ f =>
    refine ⟨stripBareAll f r, ?_⟩
    simp [stripBareAll, isFence3_false_of_head c r hc]

/-- Dropping a prefix by a predicate that fails on the final element
leaves that final element in place. -/
theorem dropWhile_append_last (p : Char → Bool) (l : List Char) (c : Char)
    (hc : p c = false) : ∃ u, (l ++ [c]).dropWhile p = u ++ [c] := by
  induction l with
  | nil => exact ⟨[], by simp [List.dropWhile_cons, hc]⟩
  | cons a t ih =>
    by_cases ha : p a = true
    · simpa [List.dropWhile_cons, ha] using ih
    · exact ⟨a :: t, by simp [List.dropWhile_cons, ha]⟩

/-- `trim` keeps a non-whitespace head character at the head. -/
theorem jsTrim_cons_head (c : Char) (r : List Char) (hc : isJsWsChar c = false) :
    ∃ t, (jsTrim (String.mk (c :: r))).data = c :: t := by
  obtain ⟨u, hu⟩ := dropWhile_append_last isJsWsChar r.reverse c hc
  refine ⟨u.reverse, ?_⟩
  show (((c :: r).dropWhile isJsWsChar).reverse.dropWhile isJsWsChar).reverse = c :: u.reverse
  rw [List.dropWhile_cons, if_neg (by simp [hc]), List.reverse_cons, hu]
  simp

/-- `parseGo` rejects an input whose head character is `U` (it can
start no JSON token). -/
theorem parseGo_U_head (fuel : Nat) (t : List Char) :
    parseGo fuel .pVal ('U' :: t) = none := by
  cases fuel with
  | zero => rfl
  | succ f => simp [parseGo, parseNumber]

/-- `JSON.parse` fails on any string starting with `U`. -/
theorem jsonParse_U_head (s : String) (t : List Char) (hdata : s.data = 'U' :: t) :
    jsonParse s = none := by
  unfold jsonParse
  rw [hdata]
  have hskip : skipWs ('U' :: t) = 'U' :: t := by
    simp [skipWs, List.dropWhile_cons, isJsonWs]
  rw [hskip, parseGo_U_head]

/-- Cleaning a rendered message keeps its leading `U`. -/
theorem jsClean_update_head (v : String) (t : String)
    (hv : v = "Update summary: " ++ t) : ∃ u, (jsClean v).data = 'U' :: u := by
  have hdata : v.data = 'U' :: ("pdate summary: ".data ++ t.data) := by
    rw [hv]; rfl
  unfold jsClean
  rw [hdata]
  obtain ⟨r1, h1⟩ :=
    stripJsonAll_cons_head (('U' :: ("pdate summary: ".data ++ t.data)).length)
      'U' ("pdate summary: ".data ++ t.data) (by decide)
  rw [h1]
  obtain ⟨r2, h2⟩ :=
    stripBareAll_cons_head (('U' :: ("pdate summary: ".data ++ t.data)).length)
      'U' r1 (by decide)
  rw [h2]
  exact jsTrim_cons_head 'U' r2 (by decide)

/-- A rendered `Update summary:` message never re-parses as JSON, so a
second pass through `formatJsonResponse` takes the failure branch. -/
theorem formatCore_update_prefix_fails (v t : String)
    (hv : v = "Update summary: " ++ t) :
    formatCore v = .error (.parseFail "Unexpected token in JSON") := by
  obtain ⟨u, hu⟩ := jsClean_update_head v t hv
  unfold formatCore
  rw [jsonParse_U_head (jsClean v) u hu]

/-- Every success of `formatCore` starts with the fixed prefix. -/
theorem formatCore_ok_shape (x v : String) (h : formatCore x = .ok v) :
    ∃ t, v = "Update summary: " ++ t := by
  unfold formatCore at h
  split at h
  · simp at h
  · rename_i parsed hp
    cases hs : jsGetProp parsed "summary" with
    | error e => rw [hs] at h; simp [Bind.bind, Except.bind] at h
    | ok sv =>
      rw [hs] at h
      cases hc : jsGetProp parsed "changes" with
      | error e =>
        rw [hc] at h
        simp [Bind.bind, Except.bind] at h
      | ok cv =>
        rw [hc] at h
        simp only [Bind.bind, Except.bind] at h
        by_cases ht : jsTruthy cv = true
        · rw [if_pos ht] at h
          cases hl : jsGetProp cv "length" with
          | error e => rw [hl] at h; simp at h
          | ok lv =>
            rw [hl] at h
            simp only [Except.bind] at h
            by_cases hg : jsGtZero lv = true
            · rw [if_pos hg] at h
              cases hm : jsMapBullet cv with
              | error e => rw [hm] at h; simp at h
              | ok bs =>
                rw [hm] at h
                simp only [Except.bind, pure, Except.pure, Except.ok.injEq] at h
                exact ⟨jsToString sv ++ "\n\n" ++ joinNl bs, by rw [← h]; simp [String.append_assoc]⟩
            · rw [if_neg hg] at h
              simp only [pure, Except.pure, Except.ok.injEq] at h
              exact ⟨jsToString sv, h.symm⟩
        · rw [if_neg ht] at h
          simp only [pure, Except.pure, Except.ok.injEq] at h
          exact ⟨jsToString sv, h.symm⟩

/-! ### C4, C5, C10 -/

/-- C4: when the cleaned input is not valid JSON, `JSON.parse` throws,
the local catch fires, and the original raw input (not the cleaned
text) is returned; no exception escapes. -/
theorem formatJsonResponse_passthrough (x : String)
    (h : jsonParse (jsClean x) = none) : formatJsonResponse x = x := by
  simp [formatJsonResponse, formatCore, h]

/-- C4 (witness). -/
theorem formatJsonResponse_passthrough_witness :
    jsonParse (jsClean "The model returned prose, not JSON.") = none ∧
    formatJsonResponse "The model returned prose, not JSON." =
      "The model returned prose, not JSON." :=
  ⟨rfl, formatJsonResponse_passthrough _ rfl⟩

/-- C5: a parsed object with a string `summary` renders the summary
line; a non-empty `changes` array additionally renders a blank line and
one bullet per entry in order, while an empty or absent `changes`
yields exactly the summary line. -/
theorem formatJsonResponse_renders (x summ : String)
    (fs : List (String × JsValue)) (chs : List JsValue)
    (hp : jsonParse (jsClean x) = some (.jsObj fs))
    (hs : lookupLast fs "summary" = some (.jsStr summ))
    (hc : lookupLast fs "changes" = some (.jsArr chs) ∨
          (lookupLast fs "changes" = none ∧ chs = [])) :
    formatJsonResponse x =
      (if chs.isEmpty then "Update summary: " ++ summ
       else "Update summary: " ++ summ ++ "\n\n" ++
         joinNl (chs.map (fun ch => "• " ++ jsToString ch))) := by
  have hsum : jsGetProp (.jsObj fs) "summary" = .ok (.jsStr summ) := by
    simp [jsGetProp, hs]
  rcases hc with hc | ⟨hc, hchs⟩
  · have hchg : jsGetProp (.jsObj fs) "changes" = .ok (.jsArr chs) := by
      simp [jsGetProp, hc]
    cases chs with
    | nil =>
      simp only [formatJsonResponse, formatCore, hp, hsum, hchg]
      simp [jsTruthy, jsGetProp, jsGtZero, jsToString, Bind.bind, Except.bind,
        pure, Except.pure]
    | cons ch rest =>
      simp only [formatJsonResponse, formatCore, hp, hsum, hchg]
      simp [jsTruthy, jsGetProp, jsGtZero, jsMapBullet, jsToString, Bind.bind,
        Except.bind, pure, Except.pure, List.isEmpty]
  · have hchg : jsGetProp (.jsObj fs) "changes" = .ok .jsUndefined := by
      simp [jsGetProp, hc]
    subst hchs
    simp only [formatJsonResponse, formatCore, hp, hsum, hchg]
    simp [jsTruthy, jsToString, Bind.bind, Except.bind, pure, Except.pure]

/-- C5 (witness): the empty-changes example from the specification. -/
theorem formatJsonResponse_renders_witness :
    jsonParse (jsClean "\x7b\"summary\":\"All good\",\"changes\":[]\x7d") =
        some (.jsObj [("summary", .jsStr "All good"), ("changes", .jsArr [])]) ∧
      formatJsonResponse "\x7b\"summary\":\"All good\",\"changes\":[]\x7d" =
        "Update summary: All good" := by
  refine ⟨rfl, ?_⟩
  have h := formatJsonResponse_renders
    "\x7b\"summary\":\"All good\",\"changes\":[]\x7d" "All good"
    [("summary", .jsStr "All good"), ("changes", .jsArr [])] []
    rfl rfl (Or.inl rfl)
  simpa using h

/-- C10: `formatJsonResponse` is idempotent — a successful rendering
starts with `Update summary: `, which can never re-parse as JSON, so a
second application returns it unchanged; on the failure branch the
function is already the identity. -/
theorem formatJsonResponse_idem (x : String) :
    formatJsonResponse (formatJsonResponse x) = formatJsonResponse x := by
  cases h : formatCore x with
  | error e =>
    have hx : formatJsonResponse x = x := by simp [formatJsonResponse, h]
    rw [hx]; exact hx
  | ok v =>
    have hx : formatJsonResponse x = v := by simp [formatJsonResponse, h]
    obtain ⟨t, ht⟩ := formatCore_ok_shape x v h
    rw [hx]
    simp [formatJsonResponse, formatCore_update_prefix_fails v t ht]

/-! ### Lemmas about the diff windower -/

/-- A prefix of a prefix is a prefix. -/
theorem isPrefixOf_append_left (p q l : List Char) (h : (p ++ q).isPrefixOf l = true) :
    p.isPrefixOf l = true := by
  simp only [ List.isPrefixOf_iff_prefix] at h ⊢
  exact (List.prefix_append p q).trans h

/-- A line starting with `--- ` starts with `-`. -/
theorem strStarts_of_minus (l : String) (h : strStarts l "--- " = true) :
    strStarts l "-" = true :=
  isPrefixOf_append_left "-".data "-- ".data l.data h

/-- A line starting with `+++ ` starts with `+`. -/
theorem strStarts_of_plus (l : String) (h : strStarts l "+++ " = true) :
    strStarts l "+" = true :=
  isPrefixOf_append_left "+".data "++ ".data l.data h

/-- A line starting with `@@ ` starts with `@@`. -/
theorem strStarts_of_hunk (l : String) (h : strStarts l "@@ " = true) :
    strStarts l "@@" = true :=
  isPrefixOf_append_left "@@".data " ".data l.data h

/-- The two header forms that the neighbour-context test fails to
exclude: `diff --git` and `index `. -/
def dupProneHeader (l : String) : Bool :=
  strStarts l "diff --git" || strStarts l "index "

/-- The three prefix rejections behind the neighbour-context test. -/
theorem ctxKeep_parts (l : String) :
    ctxKeep l = true →
      strStarts l "+" = false ∧ strStarts l "-" = false ∧ strStarts l "@@" = false := by
  unfold ctxKeep
  cases h1 : strStarts l "+" <;> cases h2 : strStarts l "-" <;>
    cases h3 : strStarts l "@@" <;> simp

/-- The five header alternatives. -/
theorem isHeaderLine_parts (l : String) :
    isHeaderLine l = true →
      strStarts l "diff --git" = true ∨ strStarts l "index " = true ∨
      strStarts l "--- " = true ∨ strStarts l "+++ " = true ∨
      strStarts l "@@ " = true := by
  unfold isHeaderLine
  cases h1 : strStarts l "diff --git" <;> cases h2 : strStarts l "index " <;>
    cases h3 : strStarts l "--- " <;> cases h4 : strStarts l "+++ " <;>
    cases h5 : strStarts l "@@ " <;> simp

/-- A context-eligible line is not a change line. -/
theorem ctxKeep_not_change (l : String) (hk : ctxKeep l = true) :
    isChangeStart l = false := by
  obtain ⟨hplus, hminus, _⟩ := ctxKeep_parts l hk
  simp [isChangeStart, hplus, hminus]

/-- A header line that passes the neighbour-context test must be a
`diff --git` or `index ` header: the other three header forms start
with `+`, `-` or `@@`. -/
theorem header_ctxKeep_dupProne (l : String) (hh : isHeaderLine l = true)
    (hk : ctxKeep l = true) : dupProneHeader l = true := by
  obtain ⟨hplus, hminus, hat⟩ := ctxKeep_parts l hk
  unfold dupProneHeader
  rcases isHeaderLine_parts l hh with h | h | h | h | h
  · simp [h]
  · simp [h]
  · exact absurd (strStarts_of_minus l h) (by simp [hminus])
  · exact absurd (strStarts_of_plus l h) (by simp [hplus])
  · exact absurd (strStarts_of_hunk l h) (by simp [hat])

/-- Precondition ruling out the windower's header-duplication corner:
no `diff --git` or `index ` line is immediately adjacent to a change
line. -/
def NoDupAdjacency (lines : List String) : Prop :=
  ∀ j, j < lines.length → dupProneHeader (getLine lines j) = true →
    isRealChange (getLine lines (j - 1)) = false ∧
    isRealChange (getLine lines (j + 1)) = false

instance (lines : List String) : Decidable (NoDupAdjacency lines) := by
  unfold NoDupAdjacency; infer_instance

/-- Components of a successful preceding-neighbour test. -/
theorem preEmitB_spec (lines : List String) (i : Nat) (added : List Nat)
    (h : preEmitB lines i added = true) :
    0 < i ∧ added.contains (i - 1) = false ∧ ctxKeep (getLine lines (i - 1)) = true := by
  simp [preEmitB] at h
  exact ⟨h.1.1, by simpa using h.1.2, h.2⟩

/-- The `addedLines` insertions made before the following-neighbour
test (`i` and possibly `i - 1`) never equal `i + 1`, so the test only
consults the set as it was at the start of the iteration. -/
theorem postEmitB_eq (lines : List String) (i : Nat) (added : List Nat) :
    postEmitB lines i added =
      (decide (i + 1 < lines.length) && !added.contains (i + 1) &&
        ctxKeep (getLine lines (i + 1))) := by
  unfold postEmitB addedMid
  have h1 : i + 1 ≠ i := by omega
  have h2 : i + 1 ≠ i - 1 := by omega
  by_cases hp : preEmitB lines i added = true <;>
    simp [hp, List.contains_cons, h1, h2]

/-- Components of a successful following-neighbour test. -/
theorem postEmitB_spec (lines : List String) (i : Nat) (added : List Nat)
    (h : postEmitB lines i added = true) :
    i + 1 < lines.length ∧ added.contains (i + 1) = false ∧
      ctxKeep (getLine lines (i + 1)) = true := by
  rw [postEmitB_eq] at h
  simp at h
  exact ⟨h.1.1, by simpa using h.1.2, h.2⟩

/-- The indices pushed by one change branch. -/
theorem changeEmit_mem (lines : List String) (i : Nat) (added : List Nat) (j : Nat) :
    j ∈ changeEmit lines i added ↔
      ((preEmitB lines i added = true ∧ j = i - 1) ∨ j = i ∨
       (postEmitB lines i added = true ∧ j = i + 1)) := by
  unfold changeEmit
  by_cases hp : preEmitB lines i added = true <;>
    by_cases hq : postEmitB lines i added = true <;>
      simp [hp, hq]

/-- Unfolding membership of a `contains` test on a cons cell. -/
theorem contains_cons_elim {a j : Nat} {l : List Nat} (h : (a :: l).contains j = true) :
    j = a ∨ l.contains j = true := by
  simp [List.contains_cons] at h
  rcases h with h | h
  · exact Or.inl h
  · exact Or.inr (by simpa using h)

/-- Beyond the last line the scan emits nothing. -/
theorem scanAux_out (lines : List String) (fuel : Nat) :
    ∀ i added, lines.length ≤ i → scanAux lines fuel i added = [] := by
  cases fuel <;> intro i added h
  · rfl
  · simp [scanAux, Nat.not_lt.mpr h]

/-- Every emitted index is a valid line index. -/
theorem scanAux_elem_ub (lines : List String) (fuel : Nat) :
    ∀ i added j, j ∈ scanAux lines fuel i added → j < lines.length := by
  induction fuel with
  | zero => intro i added j hj; simp [scanAux] at hj
  | succ f ih =>
    intro i added j hj
    simp only [scanAux] at hj
    by_cases hi : i < lines.length
    · rw [if_pos hi] at hj
      by_cases hh : isHeaderLine (getLine lines i) = true
      · rw [if_pos hh] at hj
        rcases List.mem_cons.mp hj with rfl | hj
        · exact hi
        · exact ih _ _ _ hj
      · rw [if_neg hh] at hj
        by_cases hc : isChangeStart (getLine lines i) = true
        · rw [if_pos hc] at hj
          rcases List.mem_append.mp hj with hj | hj
          · rcases (changeEmit_mem lines i added j).mp hj with ⟨hp, rfl⟩ | rfl | ⟨hq, rfl⟩
            · omega
            · exact hi
            · exact (postEmitB_spec lines i added hq).1
          · exact ih _ _ _ hj
        · rw [if_neg hc] at hj
          exact ih _ _ _ hj
    · rw [if_neg hi] at hj
      simp at hj

/-- Lower bound on emitted indices: everything emitted from iteration
`i` onwards is `≥ i`, except a preceding context line `i - 1` emitted
by a change line at `i` itself. -/
theorem scanAux_elem_lb (lines : List String) (fuel : Nat) :
    ∀ i added j, j ∈ scanAux lines fuel i added →
      i ≤ j ∨ (j + 1 = i ∧ isRealChange (getLine lines i) = true ∧
               added.contains j = false ∧ ctxKeep (getLine lines j) = true) := by
  induction fuel with
  | zero => intro i added j hj; simp [scanAux] at hj
  | succ f ih =>
    intro i added j hj
    simp only [scanAux] at hj
    by_cases hi : i < lines.length
    case neg => rw [if_neg hi] at hj; simp at hj
    rw [if_pos hi] at hj
    by_cases hh : isHeaderLine (getLine lines i) = true
    · rw [if_pos hh] at hj
      rcases List.mem_cons.mp hj with rfl | hj
      · exact Or.inl le_rfl
      · rcases ih _ _ _ hj with h | ⟨h1, _, _, _⟩ <;> exact Or.inl (by omega)
    · rw [if_neg hh] at hj
      by_cases hc : isChangeStart (getLine lines i) = true
      · rw [if_pos hc] at hj
        have hh' : isHeaderLine (getLine lines i) = false := by simpa using hh
        have hrc : isRealChange (getLine lines i) = true := by
          simp [isRealChange, hh', hc]
        rcases List.mem_append.mp hj with hj | hj
        · rcases (changeEmit_mem lines i added j).mp hj with ⟨hp, rfl⟩ | rfl | ⟨hq, rfl⟩
          · obtain ⟨hi0, hcont, hctx⟩ := preEmitB_spec lines i added hp
            exact Or.inr ⟨by omega, hrc, hcont, hctx⟩
          · exact Or.inl le_rfl
          · exact Or.inl (by omega)
        · rcases ih _ _ _ hj with h | ⟨h1, _, _, _⟩ <;> exact Or.inl (by omega)
      · rw [if_neg hc] at hj
        rcases ih _ _ _ hj with h | ⟨h1, _, _, _⟩ <;> exact Or.inl (by omega)

/-- Loop invariant on the `addedLines` set at the start of iteration
`i`: every member was inserted at an earlier iteration (hence is `< i`),
except that the previous iteration's change branch may just have
inserted its following neighbour `i`, which then is context-eligible
and follows a change line. -/
def ScanInv (lines : List String) (i : Nat) (added : List Nat) : Prop :=
  ∀ j, added.contains j = true →
    j < i ∨ (j = i ∧ ctxKeep (getLine lines i) = true ∧
             isRealChange (getLine lines (i - 1)) = true)

/-- The invariant weakens when stepping past a non-change line. -/
theorem ScanInv_mono (lines : List String) (i : Nat) (added : List Nat)
    (h : ScanInv lines i added) : ScanInv lines (i + 1) added := by
  intro j hj
  rcases h j hj with h' | ⟨rfl, _, _⟩
  · exact Or.inl (by omega)
  · exact Or.inl (by omega)

/-- All members of the mid-branch set are `≤ i`. -/
theorem addedMid_bound (lines : List String) (i : Nat) (added : List Nat)
    (hinv : ScanInv lines i added) (j : Nat)
    (hj : (addedMid lines i added).contains j = true) : j < i + 1 := by
  unfold addedMid at hj
  rcases contains_cons_elim hj with rfl | hj
  · omega
  · by_cases hp : preEmitB lines i added = true
    · rw [if_pos hp] at hj
      rcases contains_cons_elim hj with rfl | hj
      · omega
      · rcases hinv j hj with h | ⟨rfl, _, _⟩ <;> omega
    · rw [if_neg hp] at hj
      rcases hinv j hj with h | ⟨rfl, _, _⟩ <;> omega

/-- The invariant is preserved by the change branch. -/
theorem ScanInv_change (lines : List String) (i : Nat) (added : List Nat)
    (hinv : ScanInv lines i added) (hrc : isRealChange (getLine lines i) = true) :
    ScanInv lines (i + 1) (changeAdded lines i added) := by
  intro j hj
  unfold changeAdded at hj
  by_cases hq : postEmitB lines i added = true
  · rw [if_pos hq] at hj
    rcases contains_cons_elim hj with rfl | hj
    · obtain ⟨_, _, hctx⟩ := postEmitB_spec lines i added hq
      exact Or.inr ⟨rfl, hctx, by simpa using hrc⟩
    · exact Or.inl (addedMid_bound lines i added hinv j hj)
  · rw [if_neg hq] at hj
    exact Or.inl (addedMid_bound lines i added hinv j hj)

/-- The change branch records its own index. -/
theorem changeAdded_contains_self (lines : List String) (i : Nat) (added : List Nat) :
    (changeAdded lines i added).contains i = true := by
  unfold changeAdded addedMid
  by_cases hq : postEmitB lines i added = true <;>
    simp [hq, List.contains_cons]

/-- When the following neighbour was emitted, its index is recorded. -/
theorem changeAdded_contains_post (lines : List String) (i : Nat) (added : List Nat)
    (hq : postEmitB lines i added = true) :
    (changeAdded lines i added).contains (i + 1) = true := by
  unfold changeAdded
  simp [hq, List.contains_cons]

/-- A line already recorded in `addedLines` at the start of its own
iteration was a context neighbour of a change line and (under the
adjacency precondition) is neither header nor change, so its iteration
emits nothing. -/
theorem scanAux_skip (lines : List String) (fuel i : Nat) (added : List Nat)
    (hP : NoDupAdjacency lines) (hinv : ScanInv lines i added)
    (hmem : added.contains i = true) :
    scanAux lines (fuel + 1) i added = scanAux lines fuel (i + 1) added := by
  rcases hinv i hmem with h | ⟨_, hctx, hrc⟩
  · omega
  · by_cases hi : i < lines.length
    case neg =>
      have hge : lines.length ≤ i := Nat.not_lt.mp hi
      rw [scanAux_out lines (fuel + 1) i added hge,
        scanAux_out lines fuel (i + 1) added (by omega)]
    case pos =>
      have hnc : isChangeStart (getLine lines i) = false := ctxKeep_not_change _ hctx
      have hnh : isHeaderLine (getLine lines i) = false := by
        by_contra hcon
        have hhh : isHeaderLine (getLine lines i) = true := by simpa using hcon
        have hdp := header_ctxKeep_dupProne _ hhh hctx
        have h1 := (hP i hi hdp).1
        rw [h1] at hrc
        simp at hrc
      simp only [scanAux]
      rw [if_pos hi, if_neg (by simp [hnh]), if_neg (by simp [hnc])]

/-- Under the adjacency precondition the emitted index sequence is
strictly increasing. -/
theorem scanAux_chain (lines : List String) (fuel : Nat) :
    ∀ i added, NoDupAdjacency lines → ScanInv lines i added →
      List.Chain' (· < ·) (scanAux lines fuel i added) := by
  induction fuel with
  | zero => intro i added _ _; simp [scanAux]
  | succ f ih =>
    intro i added hP hinv
    by_cases hi : i < lines.length
    case neg => simp [scanAux, hi]
    by_cases hh : isHeaderLine (getLine lines i) = true
    · simp only [scanAux]
      rw [if_pos hi, if_pos hh]
      refine List.chain'_cons'.mpr
        ⟨?_, ih (i + 1) added hP (ScanInv_mono lines i added hinv)⟩
      intro b hb
      have hbmem := List.mem_of_mem_head? hb
      rcases scanAux_elem_lb lines f (i + 1) added b hbmem with h | ⟨h1, h2, _, h4⟩
      · omega
      · exfalso
        have hbi : b = i := by omega
        rw [hbi] at h4
        have hdp := header_ctxKeep_dupProne _ hh h4
        have hfalse := (hP i hi hdp).2
        rw [hfalse] at h2
        simp at h2
    · by_cases hc : isChangeStart (getLine lines i) = true
      case neg =>
        have hh' : isHeaderLine (getLine lines i) = false := by simpa using hh
        have hc' : isChangeStart (getLine lines i) = false := by simpa using hc
        simp only [scanAux]
        rw [if_pos hi, if_neg (by simp [hh']), if_neg (by simp [hc'])]
        exact ih (i + 1) added hP (ScanInv_mono lines i added hinv)
      case pos =>
        have hh' : isHeaderLine (getLine lines i) = false := by simpa using hh
        have hrc : isRealChange (getLine lines i) = true := by
          simp [isRealChange, hh', hc]
        simp only [scanAux]
        rw [if_pos hi, if_neg (by simp [hh']), if_pos hc]
        have hinv' := ScanInv_change lines i added hinv hrc
        have htail := ih (i + 1) (changeAdded lines i added) hP hinv'
        rw [List.chain'_append]
        refine ⟨?_, htail, ?_⟩
        · unfold changeEmit
          by_cases hp : preEmitB lines i added = true <;>
            by_cases hq : postEmitB lines i added = true
          · obtain ⟨hp0, _, _⟩ := preEmitB_spec lines i added hp
            simp [hp, hq]
            omega
          · obtain ⟨hp0, _, _⟩ := preEmitB_spec lines i added hp
            simp [hp, hq]
            omega
          · simp [hp, hq]
          · simp [hp, hq]
        · intro x hx y hy
          have hymem := List.mem_of_mem_head? hy
          by_cases hq : postEmitB lines i added = true
          · have hxval : x = i + 1 := by
              unfold changeEmit at hx
              by_cases hp : preEmitB lines i added = true <;>
                simp [hp, hq] at hx <;> omega
            subst hxval
            cases f with
            | zero => simp [scanAux] at hymem
            | succ f' =>
              rw [scanAux_skip lines f' (i + 1) (changeAdded lines i added) hP hinv'
                (changeAdded_contains_post lines i added hq)] at hymem
              rcases scanAux_elem_lb lines f' (i + 2) (changeAdded lines i added) y hymem
                with h | ⟨h1, _, h3, _⟩
              · omega
              · exfalso
                have hyi : y = i + 1 := by omega
                rw [hyi, changeAdded_contains_post lines i added hq] at h3
                simp at h3
          · have hxval : x = i := by
              unfold changeEmit at hx
              by_cases hp : preEmitB lines i added = true <;>
                simp [hp, hq] at hx <;> omega
            rw [hxval]
            rcases scanAux_elem_lb lines f (i + 1) (changeAdded lines i added) y hymem
              with h | ⟨h1, _, h3, _⟩
            · omega
            · exfalso
              have hyi : y = i := by omega
              rw [hyi, changeAdded_contains_self lines i added] at h3
              simp at h3

/-- The condition under which line `j` is (still) emitted by the scan
starting at iteration `i`: it is a change line at or after `i`, or a
context-eligible line adjacent to a change line whose iteration is
still to come. -/
def emitCond (lines : List String) (i j : Nat) : Prop :=
  (i ≤ j ∧ isRealChange (getLine lines j) = true) ∨
  (ctxKeep (getLine lines j) = true ∧
    ((i ≤ j + 1 ∧ j + 1 < lines.length ∧
      isRealChange (getLine lines (j + 1)) = true) ∨
     (1 ≤ j ∧ i ≤ j - 1 ∧ isRealChange (getLine lines (j - 1)) = true)))

/-- Past the end of the scan nothing is left to emit. -/
theorem emitCond_out (lines : List String) (i j : Nat) (hn : lines.length ≤ i)
    (hjn : j < lines.length) : ¬ emitCond lines i j := by
  unfold emitCond
  rintro (⟨a, _⟩ | ⟨_, (⟨a, b, _⟩ | ⟨a, b, _⟩)⟩) <;> omega

/-- Stepping the scan past a non-change line leaves the emission
condition unchanged. -/
theorem emitCond_shift (lines : List String) (i j : Nat)
    (hrcF : isRealChange (getLine lines i) = false) :
    emitCond lines i j ↔ emitCond lines (i + 1) j := by
  unfold emitCond
  constructor
  · rintro (⟨h1, h2⟩ | ⟨hctx, (⟨a, b, c⟩ | ⟨a, b, c⟩)⟩)
    · rcases Nat.eq_or_lt_of_le h1 with heq | hlt
      · exfalso; rw [← heq] at h2; rw [hrcF] at h2; simp at h2
      · exact Or.inl ⟨by omega, h2⟩
    · rcases Nat.eq_or_lt_of_le a with heq | hlt
      · exfalso; rw [← heq] at c; rw [hrcF] at c; simp at c
      · exact Or.inr ⟨hctx, Or.inl ⟨by omega, b, c⟩⟩
    · rcases Nat.eq_or_lt_of_le b with heq | hlt
      · exfalso; rw [← heq] at c; rw [hrcF] at c; simp at c
      · exact Or.inr ⟨hctx, Or.inr ⟨a, by omega, c⟩⟩
  · rintro (⟨h1, h2⟩ | ⟨hctx, (⟨a, b, c⟩ | ⟨a, b, c⟩)⟩)
    · exact Or.inl ⟨by omega, h2⟩
    · exact Or.inr ⟨hctx, Or.inl ⟨by omega, b, c⟩⟩
    · exact Or.inr ⟨hctx, Or.inr ⟨a, by omega, c⟩⟩

/-- Introduction rule for the preceding-neighbour test. -/
theorem preEmitB_intro (lines : List String) (i : Nat) (added : List Nat)
    (h1 : 0 < i) (h2 : added.contains (i - 1) = false)
    (h3 : ctxKeep (getLine lines (i - 1)) = true) :
    preEmitB lines i added = true := by
  have h2' : (i - 1) ∉ added := by simpa using h2
  simp [preEmitB, h1, h2', h3]

/-- Introduction rule for the following-neighbour test. -/
theorem postEmitB_intro (lines : List String) (i : Nat) (added : List Nat)
    (h1 : i + 1 < lines.length) (h2 : added.contains (i + 1) = false)
    (h3 : ctxKeep (getLine lines (i + 1)) = true) :
    postEmitB lines i added = true := by
  have h2' : (i + 1) ∉ added := by simpa using h2
  rw [postEmitB_eq]
  simp [h1, h2', h3]

/-- The change branch only ever grows `addedLines`. -/
theorem changeAdded_contains_mono (lines : List String) (i : Nat) (added : List Nat)
    (j : Nat) (h : added.contains j = true) :
    (changeAdded lines i added).contains j = true := by
  have h' : j ∈ added := by simpa using h
  unfold changeAdded addedMid
  by_cases hp : preEmitB lines i added = true <;>
    by_cases hq : postEmitB lines i added = true <;>
      simp [hp, hq, List.contains_cons, h']

/-- What the change branch can have inserted. -/
theorem changeAdded_contains_cases (lines : List String) (i : Nat) (added : List Nat)
    (j : Nat) (h : (changeAdded lines i added).contains j = true) :
    j = i ∨ j = i - 1 ∨ (j = i + 1 ∧ postEmitB lines i added = true) ∨
      added.contains j = true := by
  unfold changeAdded addedMid at h
  by_cases hq : postEmitB lines i added = true
  · rw [if_pos hq] at h
    rcases contains_cons_elim h with rfl | h
    · exact Or.inr (Or.inr (Or.inl ⟨rfl, hq⟩))
    · rcases contains_cons_elim h with rfl | h
      · exact Or.inl rfl
      · by_cases hp : preEmitB lines i added = true
        · rw [if_pos hp] at h
          rcases contains_cons_elim h with rfl | h
          · exact Or.inr (Or.inl rfl)
          · exact Or.inr (Or.inr (Or.inr h))
        · rw [if_neg hp] at h
          exact Or.inr (Or.inr (Or.inr h))
  · rw [if_neg hq] at h
    rcases contains_cons_elim h with rfl | h
    · exact Or.inl rfl
    · by_cases hp : preEmitB lines i added = true
      · rw [if_pos hp] at h
        rcases contains_cons_elim h with rfl | h
        · exact Or.inr (Or.inl rfl)
        · exact Or.inr (Or.inr (Or.inr h))
      · rw [if_neg hp] at h
        exact Or.inr (Or.inr (Or.inr h))

/-- Header lines are emitted exactly once each, at their own iteration:
under the adjacency precondition a header line is never picked up as a
context neighbour, so from iteration `i` on, exactly the headers at
positions `≥ i` appear. -/
theorem scanAux_mem_header (lines : List String) (fuel : Nat) :
    ∀ i added, NoDupAdjacency lines → lines.length ≤ fuel + i →
      ∀ j, isHeaderLine (getLine lines j) = true →
        (j ∈ scanAux lines fuel i added ↔ (i ≤ j ∧ j < lines.length)) := by
  induction fuel with
  | zero =>
    intro i added hP hfuel j hj
    simp only [scanAux, List.not_mem_nil, false_iff]
    omega
  | succ f ih =>
    intro i added hP hfuel j hj
    by_cases hi : i < lines.length
    case neg =>
      rw [scanAux_out lines (f + 1) i added (Nat.not_lt.mp hi)]
      simp only [List.not_mem_nil, false_iff]
      omega
    by_cases hh : isHeaderLine (getLine lines i) = true
    · simp only [scanAux]
      rw [if_pos hi, if_pos hh, List.mem_cons,
        ih (i + 1) added hP (by omega) j hj]
      constructor
      · rintro (rfl | ⟨h1, h2⟩)
        · exact ⟨le_rfl, hi⟩
        · exact ⟨by omega, h2⟩
      · rintro ⟨h1, h2⟩
        rcases Nat.eq_or_lt_of_le h1 with heq | hlt
        · exact Or.inl heq.symm
        · exact Or.inr ⟨by omega, h2⟩
    · by_cases hc : isChangeStart (getLine lines i) = true
      case pos =>
        have hh' : isHeaderLine (getLine lines i) = false := by simpa using hh
        have hrc : isRealChange (getLine lines i) = true := by
          simp [isRealChange, hh', hc]
        simp only [scanAux]
        rw [if_pos hi, if_neg (by simp [hh']), if_pos hc, List.mem_append,
          changeEmit_mem,
          ih (i + 1) (changeAdded lines i added) hP (by omega) j hj]
        constructor
        · rintro ((⟨hp, rfl⟩ | rfl | ⟨hq, rfl⟩) | ⟨h1, h2⟩)
          · exfalso
            obtain ⟨hi0, _, hctx⟩ := preEmitB_spec lines i added hp
            have hdp := header_ctxKeep_dupProne _ hj hctx
            have hfalse := (hP (i - 1) (by omega) hdp).2
            rw [show i - 1 + 1 = i by omega] at hfalse
            rw [hfalse] at hrc
            simp at hrc
          · exact absurd hj (by simp [hh'])
          · exfalso
            obtain ⟨hlt, _, hctx⟩ := postEmitB_spec lines i added hq
            have hdp := header_ctxKeep_dupProne _ hj hctx
            have hfalse := (hP (i + 1) hlt hdp).1
            rw [show i + 1 - 1 = i by omega] at hfalse
            rw [hfalse] at hrc
            simp at hrc
          · exact ⟨by omega, h2⟩
        · rintro ⟨h1, h2⟩
          rcases Nat.eq_or_lt_of_le h1 with heq | hlt
          · exact absurd hj (by rw [← heq]; simp [hh'])
          · exact Or.inr ⟨by omega, h2⟩
      case neg =>
        have hh' : isHeaderLine (getLine lines i) = false := by simpa using hh
        have hc' : isChangeStart (getLine lines i) = false := by simpa using hc
        simp only [scanAux]
        rw [if_pos hi, if_neg (by simp [hh']), if_neg (by simp [hc']),
          ih (i + 1) added hP (by omega) j hj]
        constructor
        · rintro ⟨h1, h2⟩
          exact ⟨by omega, h2⟩
        · rintro ⟨h1, h2⟩
          rcases Nat.eq_or_lt_of_le h1 with heq | hlt
          · exact absurd hj (by rw [← heq]; simp [hh'])
          · exact ⟨by omega, h2⟩

/-- Non-header lines are emitted exactly when they are change lines, or
context-eligible immediate neighbours of change lines, not yet recorded
in `addedLines`. -/
theorem scanAux_mem_nonheader (lines : List String) (fuel : Nat) :
    ∀ i added, NoDupAdjacency lines → ScanInv lines i added →
      lines.length ≤ fuel + i →
      ∀ j, isHeaderLine (getLine lines j) = false →
        (j ∈ scanAux lines fuel i added ↔
          (added.contains j = false ∧ j < lines.length ∧ emitCond lines i j)) := by
  induction fuel with
  | zero =>
    intro i added hP hinv hfuel j hj
    simp only [scanAux, List.not_mem_nil, false_iff]
    rintro ⟨_, hjn, hcond⟩
    exact emitCond_out lines i j (by omega) hjn hcond
  | succ f ih =>
    intro i added hP hinv hfuel j hj
    by_cases hi : i < lines.length
    case neg =>
      rw [scanAux_out lines (f + 1) i added (Nat.not_lt.mp hi)]
      simp only [List.not_mem_nil, false_iff]
      rintro ⟨_, hjn, hcond⟩
      exact emitCond_out lines i j (by omega) hjn hcond
    by_cases hh : isHeaderLine (getLine lines i) = true
    · have hji : j ≠ i := by
        intro e
        rw [e] at hj
        rw [hj] at hh
        simp at hh
      have hrcF : isRealChange (getLine lines i) = false := by
        simp [isRealChange, hh]
      simp only [scanAux]
      rw [if_pos hi, if_pos hh, List.mem_cons,
        ih (i + 1) added hP (ScanInv_mono lines i added hinv) (by omega) j hj]
      constructor
      · rintro (rfl | ⟨h1, h2, h3⟩)
        · exact absurd rfl hji
        · exact ⟨h1, h2, (emitCond_shift lines i j hrcF).mpr h3⟩
      · rintro ⟨h1, h2, h3⟩
        exact Or.inr ⟨h1, h2, (emitCond_shift lines i j hrcF).mp h3⟩
    · by_cases hc : isChangeStart (getLine lines i) = true
      case neg =>
        have hh' : isHeaderLine (getLine lines i) = false := by simpa using hh
        have hc' : isChangeStart (getLine lines i) = false := by simpa using hc
        have hrcF : isRealChange (getLine lines i) = false := by
          simp [isRealChange, hc']
        simp only [scanAux]
        rw [if_pos hi, if_neg (by simp [hh']), if_neg (by simp [hc']),
          ih (i + 1) added hP (ScanInv_mono lines i added hinv) (by omega) j hj]
        constructor
        · rintro ⟨h1, h2, h3⟩
          exact ⟨h1, h2, (emitCond_shift lines i j hrcF).mpr h3⟩
        · rintro ⟨h1, h2, h3⟩
          exact ⟨h1, h2, (emitCond_shift lines i j hrcF).mp h3⟩
      case pos =>
        have hh' : isHeaderLine (getLine lines i) = false := by simpa using hh
        have hrc : isRealChange (getLine lines i) = true := by
          simp [isRealChange, hh', hc]
        have hinv' := ScanInv_change lines i added hinv hrc
        simp only [scanAux]
        rw [if_pos hi, if_neg (by simp [hh']), if_pos hc, List.mem_append,
          ih (i + 1) (changeAdded lines i added) hP hinv' (by omega) j hj]
        constructor
        · rintro (hmem | ⟨h1, h2, h3⟩)
          · rcases (changeEmit_mem lines i added j).mp hmem with ⟨hp, rfl⟩ | hjeq | ⟨hq, rfl⟩
            · obtain ⟨hi0, hcont, hctx⟩ := preEmitB_spec lines i added hp
              have e1 : i - 1 + 1 = i := by omega
              refine ⟨hcont, by omega, Or.inr ⟨hctx, Or.inl ⟨by omega, ?_, ?_⟩⟩⟩
              · rw [e1]; exact hi
              · rw [e1]; exact hrc
            · rw [hjeq]
              have hci : added.contains i = false := by
                cases hcc : added.contains i
                · rfl
                · exfalso
                  rcases hinv i hcc with h' | ⟨_, hctx, _⟩
                  · omega
                  · have hnc := ctxKeep_not_change _ hctx
                    rw [hnc] at hc
                    simp at hc
              exact ⟨hci, hi, Or.inl ⟨le_rfl, hrc⟩⟩
            · obtain ⟨hlt, hcont, hctx⟩ := postEmitB_spec lines i added hq
              refine ⟨hcont, hlt, Or.inr ⟨hctx, Or.inr ⟨by omega, by omega, ?_⟩⟩⟩
              rw [show i + 1 - 1 = i by omega]
              exact hrc
          · have hcontF : added.contains j = false := by
              cases hcc : added.contains j
              · rfl
              · exfalso
                rw [changeAdded_contains_mono lines i added j hcc] at h1
                simp at h1
            refine ⟨hcontF, h2, ?_⟩
            unfold emitCond at h3 ⊢
            rcases h3 with ⟨a, b⟩ | ⟨hctx, (⟨a, b, c⟩ | ⟨a, b, c⟩)⟩
            · exact Or.inl ⟨by omega, b⟩
            · exact Or.inr ⟨hctx, Or.inl ⟨by omega, b, c⟩⟩
            · exact Or.inr ⟨hctx, Or.inr ⟨a, by omega, c⟩⟩
        · rintro ⟨hcont, hjn, hcond⟩
          unfold emitCond at hcond
          rcases hcond with ⟨hij, hrcj⟩ | ⟨hctx, hnb⟩
          · rcases Nat.eq_or_lt_of_le hij with heq | hlt
            · exact Or.inl ((changeEmit_mem lines i added j).mpr
                (Or.inr (Or.inl heq.symm)))
            · right
              have hq' : j = i + 1 → postEmitB lines i added = false := by
                intro e
                cases hqq : postEmitB lines i added
                · rfl
                · exfalso
                  obtain ⟨_, _, hctx1⟩ := postEmitB_spec lines i added hqq
                  have hnc := ctxKeep_not_change _ hctx1
                  rw [e] at hrcj
                  unfold isRealChange at hrcj
                  rw [hnc] at hrcj
                  simp at hrcj
              have hcadd : (changeAdded lines i added).contains j = false := by
                cases hcc : (changeAdded lines i added).contains j
                · rfl
                · exfalso
                  rcases changeAdded_contains_cases lines i added j hcc with
                    e | e | ⟨e, hpost⟩ | hmem2
                  · omega
                  · omega
                  · rw [hq' e] at hpost; simp at hpost
                  · rw [hcont] at hmem2; simp at hmem2
              refine ⟨hcadd, hjn, Or.inl ⟨by omega, hrcj⟩⟩
          · rcases hnb with ⟨ha, hb, hc2⟩ | ⟨ha, hb, hc2⟩
            · rcases Nat.eq_or_lt_of_le ha with heq | hlt
              · left
                apply (changeEmit_mem lines i added j).mpr
                left
                have hji : j = i - 1 := by omega
                refine ⟨preEmitB_intro lines i added (by omega) ?_ ?_, hji⟩
                · rw [← hji]; exact hcont
                · rw [← hji]; exact hctx
              · by_cases hji1 : j = i + 1
                · left
                  apply (changeEmit_mem lines i added j).mpr
                  right; right
                  refine ⟨postEmitB_intro lines i added (by omega) ?_ ?_, hji1⟩
                  · rw [← hji1]; exact hcont
                  · rw [← hji1]; exact hctx
                · right
                  have hjneqi : j ≠ i := by
                    intro e
                    rw [e] at hctx
                    have hnc := ctxKeep_not_change _ hctx
                    rw [hnc] at hc
                    simp at hc
                  have hcadd : (changeAdded lines i added).contains j = false := by
                    cases hcc : (changeAdded lines i added).contains j
                    · rfl
                    · exfalso
                      rcases changeAdded_contains_cases lines i added j hcc with
                        e | e | ⟨e, _⟩ | hmem2
                      · exact hjneqi e
                      · omega
                      · exact hji1 e
                      · rw [hcont] at hmem2; simp at hmem2
                  exact ⟨hcadd, hjn, Or.inr ⟨hctx, Or.inl ⟨by omega, hb, hc2⟩⟩⟩
            · rcases Nat.eq_or_lt_of_le hb with heq | hlt
              · left
                apply (changeEmit_mem lines i added j).mpr
                right; right
                have hji1 : j = i + 1 := by omega
                refine ⟨postEmitB_intro lines i added (by omega) ?_ ?_, hji1⟩
                · rw [← hji1]; exact hcont
                · rw [← hji1]; exact hctx
              · right
                have hcadd : (changeAdded lines i added).contains j = false := by
                  cases hcc : (changeAdded lines i added).contains j
                  · rfl
                  · exfalso
                    rcases changeAdded_contains_cases lines i added j hcc with
                      e | e | ⟨e, _⟩ | hmem2
                    · omega
                    · omega
                    · omega
                    · rw [hcont] at hmem2; simp at hmem2
                exact ⟨hcadd, hjn, Or.inr ⟨hctx, Or.inr ⟨ha, by omega, hc2⟩⟩⟩

/-- The scan starts with an empty `addedLines` set. -/
theorem ScanInv_nil (lines : List String) : ScanInv lines 0 [] := by
  intro j hj
  simp at hj

/-- Two strictly increasing lists with the same members are equal. -/
theorem pairwiseLt_ext : ∀ (l1 l2 : List Nat), List.Pairwise (· < ·) l1 →
    List.Pairwise (· < ·) l2 → (∀ x, x ∈ l1 ↔ x ∈ l2) → l1 = l2 := by
  intro l1
  induction l1 with
  | nil =>
    intro l2 _ _ hm
    cases l2 with
    | nil => rfl
    | cons b t => exact absurd ((hm b).mpr (List.mem_cons_self b t)) (List.not_mem_nil b)
  | cons a t1 ih =>
    intro l2 hp1 hp2 hm
    cases l2 with
    | nil => exact absurd ((hm a).mp (List.mem_cons_self a t1)) (List.not_mem_nil a)
    | cons b t2 =>
      have hab : a = b := by
        have ha2 : a ∈ b :: t2 := (hm a).mp (List.mem_cons_self a t1)
        have hb1 : b ∈ a :: t1 := (hm b).mpr (List.mem_cons_self b t2)
        rcases List.mem_cons.mp ha2 with h | h
        · exact h
        · rcases List.mem_cons.mp hb1 with h' | h'
          · exact h'.symm
          · have h1 := (List.pairwise_cons.mp hp2).1 a h
            have h2 := (List.pairwise_cons.mp hp1).1 b h'
            omega
      subst hab
      congr 1
      apply ih t2 (List.pairwise_cons.mp hp1).2 (List.pairwise_cons.mp hp2).2
      intro x
      constructor
      · intro hx
        have hx2 := (hm x).mp (List.mem_cons_of_mem a hx)
        rcases List.mem_cons.mp hx2 with heq | h
        · exfalso
          have := (List.pairwise_cons.mp hp1).1 x hx
          omega
        · exact h
      · intro hx
        have hx1 := (hm x).mpr (List.mem_cons_of_mem a hx)
        rcases List.mem_cons.mp hx1 with heq | h
        · exfalso
          have := (List.pairwise_cons.mp hp2).1 x hx
          omega
        · exact h

/-- Reading every index in order reproduces the line list. -/
theorem map_getLine_range (lines : List String) :
    (List.range lines.length).map (getLine lines) = lines := by
  apply List.ext_getElem
  · simp
  · intro i h1 h2
    simp [getLine, List.getD_eq_getElem?_getD, List.getElem?_eq_getElem h2]

/-- The emitted index list is strictly increasing (full scan). -/
theorem emittedIdx_chain (lines : List String) (hP : NoDupAdjacency lines) :
    List.Chain' (· < ·) (emittedIdx lines) :=
  scanAux_chain lines lines.length 0 [] hP (ScanInv_nil lines)

/-- Every emitted index is in range (full scan). -/
theorem emittedIdx_ub (lines : List String) (j : Nat) (hj : j ∈ emittedIdx lines) :
    j < lines.length :=
  scanAux_elem_ub lines lines.length 0 [] j hj

/-- The emitted indices form a sublist of `range`. -/
theorem emittedIdx_sublist_range (lines : List String) (hP : NoDupAdjacency lines) :
    (emittedIdx lines).Sublist (List.range lines.length) := by
  have hpw : List.Pairwise (· < ·) (emittedIdx lines) :=
    List.chain'_iff_pairwise.mp (emittedIdx_chain lines hP)
  have heq : emittedIdx lines =
      (List.range lines.length).filter (fun x => decide (x ∈ emittedIdx lines)) := by
    apply pairwiseLt_ext
    · exact hpw
    · exact (List.pairwise_lt_range lines.length).filter _
    · intro x
      simp only [List.mem_filter, List.mem_range, decide_eq_true_eq]
      exact ⟨fun hx => ⟨emittedIdx_ub lines x hx, hx⟩, fun hx => hx.2⟩
  rw [heq]
  exact List.filter_sublist _

/-- C2 (amended): for every non-empty diff in which no `diff --git` or
`index ` line is immediately adjacent to a change line, the output of
`filterDiffToChanges` is the join of the lines at the emitted indices;
those indices are strictly increasing and in range — so the output's
lines form an order-preserving subsequence of the input's lines with
each input index emitted at most once and no synthesized line — and a
non-header line is emitted exactly when it is a change line or a
context-eligible (not starting with `+`, `-` or `@@`) immediate
neighbour of one. -/
theorem filterDiff_subsequence (d : String) (hne : d ≠ "")
    (hP : NoDupAdjacency (jsSplitLines d)) :
    filterDiffToChanges (some d) =
        joinNl ((emittedIdx (jsSplitLines d)).map (getLine (jsSplitLines d))) ∧
      List.Chain' (· < ·) (emittedIdx (jsSplitLines d)) ∧
      (∀ j ∈ emittedIdx (jsSplitLines d), j < (jsSplitLines d).length) ∧
      ((emittedIdx (jsSplitLines d)).map (getLine (jsSplitLines d))).Sublist
        (jsSplitLines d) ∧
      (∀ j, isHeaderLine (getLine (jsSplitLines d) j) = false →
        (j ∈ emittedIdx (jsSplitLines d) ↔
          (j < (jsSplitLines d).length ∧ emitCond (jsSplitLines d) 0 j))) := by
  refine ⟨by simp [filterDiffToChanges, hne], emittedIdx_chain _ hP,
    fun j hj => emittedIdx_ub _ j hj, ?_, ?_⟩
  · have h := (emittedIdx_sublist_range (jsSplitLines d) hP).map
      (getLine (jsSplitLines d))
    rwa [map_getLine_range] at h
  · intro j hj
    have h := scanAux_mem_nonheader (jsSplitLines d) (jsSplitLines d).length 0 []
      hP (ScanInv_nil _) (by omega) j hj
    rw [show emittedIdx (jsSplitLines d) =
      scanAux (jsSplitLines d) (jsSplitLines d).length 0 [] from rfl, h]
    simp

/-- C2 (witness for the amended theorem). -/
theorem filterDiff_subsequence_witness :
    ("ctx1\n+add\nctx2" ≠ "") ∧ NoDupAdjacency (jsSplitLines "ctx1\n+add\nctx2") ∧
      List.Chain' (· < ·) (emittedIdx (jsSplitLines "ctx1\n+add\nctx2")) :=
  ⟨by decide, by decide,
   (filterDiff_subsequence "ctx1\n+add\nctx2" (by decide) (by decide)).2.1⟩

/-- C2 (counterexample): on a diff whose last change line is followed
by the next file's `diff --git` header, that header is pushed twice —
once as a context neighbour and once by the header branch — so the
output's lines are not a subsequence of the input's lines and an input
index is emitted twice. -/
theorem filterDiff_subsequence_cex :
    ¬ (jsSplitLines (filterDiffToChanges
          (some "@@ -1 +1 @@\n+x\ndiff --git a/b b/b"))).Sublist
        (jsSplitLines "@@ -1 +1 @@\n+x\ndiff --git a/b b/b") := by
  intro h
  have hc := h.count_le "diff --git a/b b/b"
  revert hc
  decide

/-- C3 (amended): for every diff with no `diff --git`/`index ` line
adjacent to a change line, the header-classified positions among the
emitted indices are exactly all header positions of the input, in
increasing order — every header appears, in original relative order,
and none is duplicated. -/
theorem filterDiff_headers (d : String) (hne : d ≠ "")
    (hP : NoDupAdjacency (jsSplitLines d)) :
    filterDiffToChanges (some d) =
        joinNl ((emittedIdx (jsSplitLines d)).map (getLine (jsSplitLines d))) ∧
      (emittedIdx (jsSplitLines d)).filter
          (fun j => isHeaderLine (getLine (jsSplitLines d) j)) =
        (List.range (jsSplitLines d).length).filter
          (fun j => isHeaderLine (getLine (jsSplitLines d) j)) := by
  refine ⟨by simp [filterDiffToChanges, hne], ?_⟩
  have hpw : List.Pairwise (· < ·) (emittedIdx (jsSplitLines d)) :=
    List.chain'_iff_pairwise.mp (emittedIdx_chain _ hP)
  apply pairwiseLt_ext
  · exact hpw.filter _
  · exact (List.pairwise_lt_range _).filter _
  · intro x
    simp only [List.mem_filter, List.mem_range]
    constructor
    · rintro ⟨hx, hh⟩
      have := (scanAux_mem_header (jsSplitLines d) (jsSplitLines d).length 0 []
        hP (by omega) x hh).mp hx
      exact ⟨this.2, hh⟩
    · rintro ⟨hx, hh⟩
      refine ⟨?_, hh⟩
      exact (scanAux_mem_header (jsSplitLines d) (jsSplitLines d).length 0 []
        hP (by omega) x hh).mpr ⟨Nat.zero_le x, hx⟩

/-- C3 (witness for the amended theorem). -/
theorem filterDiff_headers_witness :
    ("@@ -1 +1 @@\n+x\n ctx" ≠ "") ∧ NoDupAdjacency (jsSplitLines "@@ -1 +1 @@\n+x\n ctx") ∧
      (emittedIdx (jsSplitLines "@@ -1 +1 @@\n+x\n ctx")).filter
          (fun j => isHeaderLine (getLine (jsSplitLines "@@ -1 +1 @@\n+x\n ctx") j)) =
        (List.range (jsSplitLines "@@ -1 +1 @@\n+x\n ctx").length).filter
          (fun j => isHeaderLine (getLine (jsSplitLines "@@ -1 +1 @@\n+x\n ctx") j)) :=
  ⟨by decide, by decide,
   (filterDiff_headers "@@ -1 +1 @@\n+x\n ctx" (by decide) (by decide)).2⟩

/-- C3 (counterexample): the duplicated `diff --git` header — it occurs
once in the input but twice in the output, refuting "no header line is
duplicated in the output". -/
theorem filterDiff_headers_cex :
    isHeaderLine "diff --git a/b b/b" = true ∧
      (jsSplitLines "@@ -1 +1 @@\n+x\ndiff --git a/b b/b").count
          "diff --git a/b b/b" = 1 ∧
      (jsSplitLines (filterDiffToChanges
          (some "@@ -1 +1 @@\n+x\ndiff --git a/b b/b"))).count
          "diff --git a/b b/b" = 2 := by
  decide
